import Mathlib

/-
Verification development for a variable-level code-dependency analysis tool.

The tool parses Python assignment statements into dependency edges
(parser.py), upserts them into a Neo4j store (loader.py), and answers
graph queries over the stored edges (analyzer.py): cycle detection,
impact / dependency reachability, path enumeration and degree metrics.

The store is modelled as a list of edges; Neo4j's MERGE semantics means
one relationship per (from, to) pair, so the relationship set of a loaded
edge list is its first-occurrence deduplication.  Variable-length Cypher
patterns `-[:DEPENDS_ON*]->` enumerate relationship-unique paths
(trails); they are modelled by an explicit trail enumerator.
-/

/-! ## Generic list utilities -/

/-- First-occurrence deduplication with an explicit seen accumulator,
matching the `seen = set()` loops used throughout the source. -/
def firstDedupAux {α : Type} [DecidableEq α] : List α → List α → List α
  | [], _ => []
  | x :: xs, seen =>
      if x ∈ seen then firstDedupAux xs seen
      else x :: firstDedupAux xs (x :: seen)

/-- First-occurrence deduplication (keeps the first copy of each element). -/
def firstDedup {α : Type} [DecidableEq α] (l : List α) : List α :=
  firstDedupAux l []

theorem mem_firstDedupAux {α : Type} [DecidableEq α] :
    ∀ (l seen : List α) (x : α),
      x ∈ firstDedupAux l seen ↔ x ∈ l ∧ x ∉ seen := by
  intro l
  induction l with
  | nil => intro seen x; simp [firstDedupAux]
  | cons y ys ih =>
      intro seen x
      by_cases hy : y ∈ seen
      · simp only [firstDedupAux, if_pos hy, ih, List.mem_cons]
        constructor
        · rintro ⟨hx, hs⟩; exact ⟨Or.inr hx, hs⟩
        · rintro ⟨hx | hx, hs⟩
          · subst hx; exact absurd hy hs
          · exact ⟨hx, hs⟩
      · simp only [firstDedupAux, if_neg hy, List.mem_cons, ih]
        constructor
        · rintro (hx | ⟨hx, hs⟩)
          · subst hx; exact ⟨Or.inl rfl, hy⟩
          · simp at hs
            exact ⟨Or.inr hx, hs.2⟩
        · rintro ⟨hx | hx, hs⟩
          · exact Or.inl hx
          · by_cases hxy : x = y
            · exact Or.inl hxy
            · exact Or.inr ⟨hx, by simp [hxy, hs]⟩

theorem mem_firstDedup {α : Type} [DecidableEq α] (l : List α) (x : α) :
    x ∈ firstDedup l ↔ x ∈ l := by
  simp [firstDedup, mem_firstDedupAux]

theorem nodup_firstDedupAux {α : Type} [DecidableEq α] :
    ∀ (l seen : List α), (firstDedupAux l seen).Nodup := by
  intro l
  induction l with
  | nil => intro seen; simp [firstDedupAux]
  | cons y ys ih =>
      intro seen
      by_cases hy : y ∈ seen
      · simpa [firstDedupAux, if_pos hy] using ih seen
      · simp only [firstDedupAux, if_neg hy, List.nodup_cons]
        refine ⟨?_, ih (y :: seen)⟩
        intro hmem
        exact ((mem_firstDedupAux ys (y :: seen) y).1 hmem).2 (by simp)

theorem nodup_firstDedup {α : Type} [DecidableEq α] (l : List α) :
    (firstDedup l).Nodup :=
  nodup_firstDedupAux l []

/-! ### Insertion sort on a boolean comparison -/

/-- Insert an element in front of the first list member it compares `le` to.
Together with `sortWith` this is a stable insertion sort, modelling the
deterministic part of a Cypher `ORDER BY`. -/
def insBy {α : Type} (le : α → α → Bool) (p : α) : List α → List α
  | [] => [p]
  | q :: qs => if le p q then p :: q :: qs else q :: insBy le p qs

/-- Stable insertion sort by a boolean comparison. -/
def sortWith {α : Type} (le : α → α → Bool) (l : List α) : List α :=
  l.foldr (insBy le) []

/-- Adjacent-pairs sortedness checker. -/
def pairwiseB {α : Type} (le : α → α → Bool) : List α → Bool
  | [] => true
  | [_] => true
  | p :: q :: r => le p q && pairwiseB le (q :: r)

theorem mem_insBy {α : Type} (le : α → α → Bool) (p x : α) :
    ∀ l : List α, x ∈ insBy le p l ↔ x = p ∨ x ∈ l := by
  intro l
  induction l with
  | nil => simp [insBy]
  | cons q qs ih =>
      by_cases h : le p q
      · simp [insBy, h]
      · simp only [insBy, if_neg h, List.mem_cons, ih]
        tauto

theorem mem_sortWith {α : Type} (le : α → α → Bool) (x : α) :
    ∀ l : List α, x ∈ sortWith le l ↔ x ∈ l := by
  intro l
  induction l with
  | nil => simp [sortWith]
  | cons q qs ih =>
      simp only [sortWith, List.foldr_cons, List.mem_cons]
      rw [show List.foldr (insBy le) [] qs = sortWith le qs from rfl] at *
      rw [mem_insBy, ih]

theorem pairwiseB_insBy {α : Type} {le : α → α → Bool}
    (htot : ∀ a b, le a b = true ∨ le b a = true) (p : α) :
    ∀ l : List α, pairwiseB le l = true → pairwiseB le (insBy le p l) = true := by
  intro l
  induction l with
  | nil => intro _; simp [insBy, pairwiseB]
  | cons q qs ih =>
      intro hs
      by_cases h : le p q
      · simp only [insBy, if_pos h, pairwiseB, Bool.and_eq_true]
        exact ⟨h, hs⟩
      · have hqp : le q p = true := by
          rcases htot p q with h1 | h1
          · exact absurd h1 (by simpa using h)
          · exact h1
        simp only [insBy, if_neg h]
        cases qs with
        | nil => simp [insBy, pairwiseB, hqp]
        | cons r rs =>
            have hs' : pairwiseB le (r :: rs) = true := by
              simp only [pairwiseB, Bool.and_eq_true] at hs
              exact hs.2
            have hqr : le q r = true := by
              simp only [pairwiseB, Bool.and_eq_true] at hs
              exact hs.1
            have := ih hs'
            by_cases h2 : le p r
            · simp only [insBy, if_pos h2] at this ⊢
              simp only [pairwiseB, Bool.and_eq_true] at this ⊢
              exact ⟨hqp, this⟩
            · simp only [insBy, if_neg h2] at this ⊢
              simp only [pairwiseB, Bool.and_eq_true] at this ⊢
              exact ⟨hqr, this⟩

theorem pairwiseB_sortWith {α : Type} {le : α → α → Bool}
    (htot : ∀ a b, le a b = true ∨ le b a = true) :
    ∀ l : List α, pairwiseB le (sortWith le l) = true := by
  intro l
  induction l with
  | nil => simp [sortWith, pairwiseB]
  | cons q qs ih =>
      simp only [sortWith, List.foldr_cons]
      exact pairwiseB_insBy htot q _ ih

theorem pairwiseB_take {α : Type} (le : α → α → Bool) :
    ∀ (l : List α) (n : Nat), pairwiseB le l = true →
      pairwiseB le (l.take n) = true := by
  intro l
  induction l with
  | nil => intro n _; simp [pairwiseB]
  | cons q qs ih =>
      intro n hs
      cases n with
      | zero => simp [pairwiseB]
      | succ m =>
          cases qs with
          | nil => simp [pairwiseB, List.take]
          | cons r rs =>
              simp only [pairwiseB, Bool.and_eq_true] at hs
              cases m with
              | zero => simp [pairwiseB]
              | succ k =>
                  have hrec := ih (k + 1) hs.2
                  simp only [List.take_cons] at hrec ⊢
                  simp only [pairwiseB, Bool.and_eq_true] at hrec ⊢
                  exact ⟨hs.1, hrec⟩

/-! ## Graph model

An analysis database is loaded as a list of `(from, to)` name pairs.
`MERGE (a)-[r:DEPENDS_ON]->(b)` creates at most one relationship per
pair, so the relationship set is the first-occurrence deduplication of
the loaded pairs. -/

/-- A directed dependency edge between two variable names. -/
abbrev Edge := String × String

/-- The relationships actually present in the store for a loaded edge
list: one per distinct `(from, to)` pair (Neo4j `MERGE`). -/
def rels (g : List Edge) : List Edge := firstDedup g

/-- The `Variable` nodes of the store, in order of first appearance while
loading edges (`MERGE` on each endpoint). -/
def nodesOf (g : List Edge) : List String :=
  firstDedup (g.bind (fun e => [e.1, e.2]))

theorem nodup_rels (g : List Edge) : (rels g).Nodup := nodup_firstDedup g

theorem mem_rels (g : List Edge) (e : Edge) : e ∈ rels g ↔ e ∈ g :=
  mem_firstDedup g e

theorem fst_mem_nodesOf {g : List Edge} {e : Edge} (h : e ∈ rels g) :
    e.1 ∈ nodesOf g := by
  rw [mem_rels] at h
  rw [nodesOf, mem_firstDedup, List.mem_bind]
  exact ⟨e, h, by simp⟩

theorem snd_mem_nodesOf {g : List Edge} {e : Edge} (h : e ∈ rels g) :
    e.2 ∈ nodesOf g := by
  rw [mem_rels] at h
  rw [nodesOf, mem_firstDedup, List.mem_bind]
  exact ⟨e, h, by simp⟩

/-! ### Trails

A variable-length Cypher pattern `-[:DEPENDS_ON*]->` binds one path per
relationship-unique walk (a trail).  `trailsAux avail fuel u` enumerates
every trail starting at `u` whose edges are drawn (without repetition)
from `avail`; `fuel` bounds the length, and `fuel = avail.length`
is enough for all of them. -/

def trailsAux : List Edge → Nat → String → List (List Edge)
  | _, 0, _ => [[]]
  | avail, n + 1, u =>
      [] :: (avail.filter (fun e => e.1 == u)).bind
        (fun e => (trailsAux (avail.erase e) n e.2).map (fun t => e :: t))

/-- Target node of the last edge of a trail starting at `u` (`u` itself
for the empty trail). -/
def trailTarget (u : String) : List Edge → String
  | [] => u
  | e :: t => trailTarget e.2 t

/-- The consecutive-endpoints condition for a trail starting at `u`. -/
def chainB (u : String) : List Edge → Bool
  | [] => true
  | e :: t => (e.1 == u) && chainB e.2 t

/-- `tr` is a legal binding for a variable-length pattern starting at
`u` over the relationships of `g`: linked, relationship-unique edges of
the store. -/
def IsTrailOf (g : List Edge) (u : String) (tr : List Edge) : Prop :=
  tr.Nodup ∧ (∀ e ∈ tr, e ∈ rels g) ∧ chainB u tr = true

/-- All bindings of `(u)-[:DEPENDS_ON*]->(v)` (length at least one). -/
def trailsFromTo (g : List Edge) (u v : String) : List (List Edge) :=
  (trailsAux (rels g) (rels g).length u).filter
    (fun tr => !tr.isEmpty && (trailTarget u tr == v))

/-- One step of the dependency relation, as stored. -/
def StepRel (g : List Edge) (x y : String) : Prop := (x, y) ∈ rels g

/-- `y` is reachable from `x` along at least one edge. -/
def Reaches (g : List Edge) (x y : String) : Prop :=
  Relation.TransGen (StepRel g) x y

theorem trailsAux_sound :
    ∀ (fuel : Nat) (avail : List Edge) (u : String) (tr : List Edge),
      avail.Nodup → tr ∈ trailsAux avail fuel u →
      chainB u tr = true ∧ (∀ e ∈ tr, e ∈ avail) ∧ tr.Nodup := by
  intro fuel
  induction fuel with
  | zero =>
      intro avail u tr _ h
      simp only [trailsAux, List.mem_singleton] at h
      subst h
      exact ⟨rfl, by simp, List.nodup_nil⟩
  | succ n ih =>
      intro avail u tr hav h
      simp only [trailsAux, List.mem_cons, List.mem_bind, List.mem_map,
        List.mem_filter] at h
      rcases h with h | ⟨e, ⟨he, heu⟩, t, ht, rfl⟩
      · subst h; exact ⟨rfl, by simp, List.nodup_nil⟩
      · have hav' : (avail.erase e).Nodup := hav.erase e
        obtain ⟨hch, hsub, hnd⟩ := ih (avail.erase e) e.2 t hav' ht
        refine ⟨?_, ?_, ?_⟩
        · simp only [chainB, Bool.and_eq_true]
          exact ⟨heu, hch⟩
        · intro x hx
          rcases List.mem_cons.1 hx with rfl | hx
          · exact he
          · exact List.mem_of_mem_erase (hsub x hx)
        · refine List.nodup_cons.2 ⟨?_, hnd⟩
          intro hmem
          have := hsub e hmem
          exact (List.Nodup.not_mem_erase hav) this

theorem trailsAux_complete :
    ∀ (tr : List Edge) (avail : List Edge) (fuel : Nat) (u : String),
      chainB u tr = true → tr.Nodup → (∀ e ∈ tr, e ∈ avail) →
      tr.length ≤ fuel → tr ∈ trailsAux avail fuel u := by
  intro tr
  induction tr with
  | nil =>
      intro avail fuel u _ _ _ _
      cases fuel with
      | zero => simp [trailsAux]
      | succ n => simp [trailsAux]
  | cons e t ih =>
      intro avail fuel u hch hnd hsub hlen
      cases fuel with
      | zero => simp at hlen
      | succ n =>
          simp only [chainB, Bool.and_eq_true] at hch
          simp only [trailsAux, List.mem_cons, List.mem_bind, List.mem_map,
            List.mem_filter]
          refine Or.inr ⟨e, ⟨hsub e (by simp), hch.1⟩, t, ?_, rfl⟩
          have hnd' := List.nodup_cons.1 hnd
          refine ih (avail.erase e) n e.2 hch.2 hnd'.2 ?_ ?_
          · intro x hx
            have hne : x ≠ e := fun hxe => hnd'.1 (hxe ▸ hx)
            exact (List.mem_erase_of_ne hne).2 (hsub x (by simp [hx]))
          · simpa using hlen

theorem reaches_of_trail {g : List Edge} :
    ∀ (tr : List Edge) (u : String), tr ≠ [] → chainB u tr = true →
      (∀ e ∈ tr, e ∈ rels g) → Reaches g u (trailTarget u tr) := by
  intro tr
  induction tr with
  | nil => intro u h; exact absurd rfl h
  | cons e t ih =>
      intro u _ hch hsub
      simp only [chainB, Bool.and_eq_true, beq_iff_eq] at hch
      have hstep : StepRel g u e.2 := by
        have : e ∈ rels g := hsub e (by simp)
        have he : e = (u, e.2) := by
          cases e
          simp only at hch
          simp [hch.1]
        rw [he] at this
        exact this
      cases t with
      | nil => exact Relation.TransGen.single hstep
      | cons f s =>
          have := ih e.2 (by simp) hch.2 (fun x hx => hsub x (by simp [hx]))
          exact Relation.TransGen.head hstep this

/-- A relation with no step out of `a` admits no transitive chain from
`a`; used to discharge concrete unreachability facts. -/
theorem not_transGen_of_no_step {α : Type} {r : α → α → Prop} {a b : α}
    (h : ∀ c, ¬ r a c) : ¬ Relation.TransGen r a b := by
  intro hab
  rcases (Relation.TransGen.head'_iff).1 hab with ⟨c, hc, _⟩
  exact h c hc

/-! ## analyzer.find_path

```
MATCH path = (start {name: $from_var})-[:DEPENDS_ON*]->(end {name: $to_var})
WITH path, [n in nodes(path) | n.name] as path_list
RETURN path_list ORDER BY length(path) LIMIT 20
```
-/

/-- Node-name list of a path binding (start node followed by each edge's
target). -/
def pathNames (u : String) (tr : List Edge) : List String :=
  u :: tr.map Prod.snd

/-- Comparison used by `ORDER BY length(path)` on returned name lists. -/
def lenLe (p q : List String) : Bool := decide (p.length ≤ q.length)

/-- `DependencyAnalyzer.find_path`: all dependency paths between two
variables, ordered by edge count, capped at 20 rows. -/
def find_path (g : List Edge) (from_var to_var : String) : List (List String) :=
  (sortWith lenLe
    ((trailsFromTo g from_var to_var).map (pathNames from_var))).take 20

/-! ## analyzer.find_impact and analyzer.find_dependencies

```
MATCH (start:Variable {name: $var_name})
MATCH path = (dependent:Variable)-[:DEPENDS_ON*]->(start)
WHERE dependent <> start
RETURN DISTINCT dependent.name as affected_var, length(path) as depth
ORDER BY depth, affected_var
```
and symmetrically `(start)-[:DEPENDS_ON*]->(dependency)`.  `DISTINCT`
dedups `(name, depth)` rows; `ORDER BY depth, name` then fixes the row
order completely.  The Python wrapper rebuilds a `depths` dict with a
comprehension, so for a name returned at several depths the *last* row
written wins. -/

/-- Lexicographic comparison of strings by code point, modelling the
ascending name order of `ORDER BY` and Python's `sorted`. -/
def strLeAux : List Char → List Char → Bool
  | [], _ => true
  | _ :: _, [] => false
  | a :: as, b :: bs =>
      if a.toNat = b.toNat then strLeAux as bs
      else decide (a.toNat < b.toNat)

/-- Ascending string order (lexicographic on code points). -/
def strLe (s t : String) : Bool := strLeAux s.data t.data

/-- `ORDER BY depth, affected_var` on distinct `(name, depth)` rows. -/
def recLe (p q : String × Nat) : Bool :=
  decide (p.2 < q.2) || (decide (p.2 = q.2) && strLe p.1 q.1)

/-- Rows of the impact query: distinct `(dependent, depth)` pairs over
all trails into `v`, dependents distinct from `v`, sorted. -/
def impactRecords (g : List Edge) (v : String) : List (String × Nat) :=
  sortWith recLe (firstDedup ((nodesOf g).bind (fun u =>
    if u = v then []
    else (trailsFromTo g u v).map (fun tr => (u, tr.length)))))

/-- Rows of the dependency query: distinct `(dependency, depth)` pairs
over all trails out of `v`, sorted. -/
def dependencyRecords (g : List Edge) (v : String) : List (String × Nat) :=
  sortWith recLe (firstDedup ((nodesOf g).bind (fun u =>
    if u = v then []
    else (trailsFromTo g v u).map (fun tr => (u, tr.length)))))

/-- Insert-or-overwrite on an insertion-ordered association list; models
assignment into a Python dict. -/
def aset : List (String × Nat) → String → Nat → List (String × Nat)
  | [], k, d => [(k, d)]
  | (a, b) :: t, k, d =>
      if a = k then (a, d) :: t else (a, b) :: aset t k d

/-- `{record["name"]: record["depth"] for record in records}`: each row
overwrites the previous depth recorded for its name. -/
def buildDepths (records : List (String × Nat)) : List (String × Nat) :=
  records.foldl (fun m p => aset m p.1 p.2) []

/-- Result dictionary of `find_impact`. -/
structure ImpactResult where
  var_name : String
  directly_affected : List String
  transitively_affected : List String
  total_affected : Nat
  affected_variables : List String
  depths : List (String × Nat)
deriving Repr, DecidableEq

/-- Result dictionary of `find_dependencies`. -/
structure DepsResult where
  var_name : String
  direct_dependencies : List String
  transitive_dependencies : List String
  total_dependencies : Nat
  all_dependencies : List String
  depths : List (String × Nat)
deriving Repr, DecidableEq

/-- `DependencyAnalyzer.find_impact`. -/
def find_impact (g : List Edge) (v : String) : ImpactResult :=
  let records := impactRecords g v
  let depths := buildDepths records
  { var_name := v
    directly_affected := (depths.filter (fun p => p.2 == 1)).map Prod.fst
    transitively_affected :=
      (depths.filter (fun p => decide (1 < p.2))).map Prod.fst
    total_affected := records.length
    affected_variables := records.map Prod.fst
    depths := depths }

/-- `DependencyAnalyzer.find_dependencies`. -/
def find_dependencies (g : List Edge) (v : String) : DepsResult :=
  let records := dependencyRecords g v
  let depths := buildDepths records
  { var_name := v
    direct_dependencies := (depths.filter (fun p => p.2 == 1)).map Prod.fst
    transitive_dependencies :=
      (depths.filter (fun p => decide (1 < p.2))).map Prod.fst
    total_dependencies := records.length
    all_dependencies := records.map Prod.fst
    depths := depths }

/-! ## analyzer.detect_cycles

Pass 1 (Cypher):

```
MATCH path = (start:Variable)-[:DEPENDS_ON*]->(start:Variable)
WHERE length(path) > 0
RETURN [n in nodes(path) | n.name] as cycle LIMIT 100
```

each returned row is post-processed by a Python loop that walks the name
list, keeps first occurrences, and appends the accumulated prefix as a
cycle only when the *first* name recurs while at least two distinct
names have been accumulated.

Pass 2 is Tarjan's strongly-connected-components algorithm over the
adjacency list, keeping components of size greater than one.

Finally cycles are deduplicated by their sorted name tuple. -/

/-- Rows of the closed-path Cypher query (node-name lists of closed
trails), capped by `LIMIT 100`. -/
def cypherCycleRecords (g : List Edge) : List (List String) :=
  ((nodesOf g).bind (fun v =>
    (trailsFromTo g v v).map (pathNames v))).take 100

/-- The row post-processing loop of `detect_cycles`: `uniq` is the
`unique_cycle` accumulator (in append order). -/
def extractCycleAux : List String → List String → Option (List String)
  | [], _ => none
  | x :: xs, uniq =>
      if x ∈ uniq then
        if uniq.head? = some x ∧ 1 < uniq.length then some uniq
        else extractCycleAux xs uniq
      else extractCycleAux xs (uniq ++ [x])

/-- Post-process one returned row into an (optional) reported cycle. -/
def extractCycle (row : List String) : Option (List String) :=
  extractCycleAux row []

/-- Cycles reported by the Cypher pass of `detect_cycles`. -/
def cypherCycles (g : List Edge) : List (List String) :=
  (cypherCycleRecords g).filterMap extractCycle

/-! ### Tarjan pass -/

/-- Association-list lookup for the `index` / `lowlink` dicts. -/
def alook : List (String × Nat) → String → Option Nat
  | [], _ => none
  | (a, b) :: t, k => if a = k then some b else alook t k

/-- Association-list write for the `index` / `lowlink` dicts. -/
def asetN : List (String × Nat) → String → Nat → List (String × Nat)
  | [], k, d => [(k, d)]
  | (a, b) :: t, k, d =>
      if a = k then (a, d) :: t else (a, b) :: asetN t k d

/-- Successor list of `v` in the adjacency dict built from
`MATCH (a)-[:DEPENDS_ON]->(b) RETURN a.name, b.name`. -/
def adjOf (g : List Edge) (v : String) : List String :=
  ((rels g).filter (fun e => e.1 == v)).map Prod.snd

/-- Keys of the adjacency dict, in insertion order: sources of
relationships, first occurrence first. -/
def srcNodes (g : List Edge) : List String :=
  firstDedup ((rels g).map Prod.fst)

/-- Mutable state threaded through `strongconnect`. -/
structure TarjanState where
  idx : List (String × Nat)
  low : List (String × Nat)
  stk : List String
  onStk : List String
  comps : List (List String)
  counter : Nat
deriving Repr

/-- The component-popping loop of `strongconnect`: pops the stack down
to `v` inclusive, returning the popped component (in pop order) and the
remaining stack. -/
def popUntil : List String → String → (List String × List String)
  | [], _ => ([], [])
  | x :: xs, v =>
      if x = v then ([x], xs)
      else
        let r := popUntil xs v
        (x :: r.1, r.2)

/-- `strongconnect` from `analyzer._tarjan_cycles`, with a fuel bound on
the recursion depth (the recursion visits each unindexed node once, so
any fuel of at least the node count is enough). -/
def strongconnect (g : List Edge) : Nat → String → TarjanState → TarjanState
  | 0, _, st => st
  | fuel + 1, v, st₀ =>
      let st₁ : TarjanState :=
        { st₀ with
          idx := asetN st₀.idx v st₀.counter
          low := asetN st₀.low v st₀.counter
          counter := st₀.counter + 1
          stk := v :: st₀.stk
          onStk := v :: st₀.onStk }
      let st₂ := (adjOf g v).foldl (fun st w =>
        match alook st.idx w with
        | none =>
            let st' := strongconnect g fuel w st
            { st' with
              low := asetN st'.low v
                (min ((alook st'.low v).getD 0) ((alook st'.low w).getD 0)) }
        | some iw =>
            if w ∈ st.onStk then
              { st with
                low := asetN st.low v (min ((alook st.low v).getD 0) iw) }
            else st) st₁
      if alook st₂.low v = alook st₂.idx v then
        let pr := popUntil st₂.stk v
        { st₂ with
          stk := pr.2
          onStk := st₂.onStk.filter (fun x => decide (x ∉ pr.1))
          comps :=
            if 1 < pr.1.length then st₂.comps ++ [pr.1] else st₂.comps }
      else st₂

/-- `analyzer._tarjan_cycles`: run `strongconnect` from every adjacency
key not yet indexed; report the collected components. -/
def tarjan_cycles (g : List Edge) : List (List String) :=
  ((srcNodes g).foldl (fun st v =>
      if alook st.idx v = none then
        strongconnect g ((nodesOf g).length + 1) v st
      else st)
    ⟨[], [], [], [], [], 0⟩).comps

/-- Ascending sort on names, modelling Python's `sorted`. -/
def sortNames (l : List String) : List String :=
  sortWith strLe l

/-- The final `tuple(sorted(cycle))` deduplication loop. -/
def dedupBySortedAux : List (List String) → List (List String) → List (List String)
  | [], _ => []
  | c :: cs, seen =>
      if sortNames c ∈ seen then dedupBySortedAux cs seen
      else c :: dedupBySortedAux cs (sortNames c :: seen)

/-- `DependencyAnalyzer.detect_cycles`: Cypher pass, then Tarjan pass,
then dedup by sorted name tuple. -/
def detect_cycles (g : List Edge) : List (List String) :=
  dedupBySortedAux (cypherCycles g ++ tarjan_cycles g) []

/-! ## analyzer.get_metrics

Seven store queries, each wrapped in `try/except`; an exception makes
the corresponding entry default to `0` / `[]` and is otherwise dropped
(the logging line is commented out).  `detect_cycles` is then called
*outside* any `try`, so a store failure there propagates.  The store
outcome is modelled by a predicate saying which of the seven queries
raise, plus a flag for a failure inside `detect_cycles`. -/

/-- In-degree of `v`: distinct incoming relationships. -/
def inDegree (g : List Edge) (v : String) : Nat :=
  ((rels g).filter (fun e => e.2 == v)).length

/-- Out-degree of `v`: distinct outgoing relationships. -/
def outDegree (g : List Edge) (v : String) : Nat :=
  ((rels g).filter (fun e => e.1 == v)).length

/-- `ORDER BY count DESC` comparison. -/
def countGe (p q : String × Nat) : Bool := decide (q.2 ≤ p.2)

/-- The `most_dependent` query: per node with at least one incoming
relationship, its in-degree; ordered by count descending (ties left in
store enumeration order), `LIMIT 10`. -/
def most_dependent (g : List Edge) : List (String × Nat) :=
  (sortWith countGe
    (((nodesOf g).filter (fun v => decide (1 ≤ inDegree g v))).map
      (fun v => (v, inDegree g v)))).take 10

/-- The `most_dependencies` query: symmetric on out-degree. -/
def most_dependencies (g : List Edge) : List (String × Nat) :=
  (sortWith countGe
    (((nodesOf g).filter (fun v => decide (1 ≤ outDegree g v))).map
      (fun v => (v, outDegree g v)))).take 10

/-- The `isolated_variables` query: `WHERE NOT (v)-[:DEPENDS_ON]-()`
(no incident relationship in either direction). -/
def isolated_variables (g : List Edge) : List String :=
  (nodesOf g).filter (fun v => inDegree g v == 0 && outDegree g v == 0)

/-- The `root_variables` query: `WHERE NOT (v)<-[:DEPENDS_ON]-()`. -/
def root_variables (g : List Edge) : List String :=
  (nodesOf g).filter (fun v => inDegree g v == 0)

/-- The `leaf_variables` query: `WHERE NOT (v)-[:DEPENDS_ON]->()`. -/
def leaf_variables (g : List Edge) : List String :=
  (nodesOf g).filter (fun v => outDegree g v == 0)

/-- `DependencyAnalyzer.find_unused_variables`, a separate method
issuing its own `WHERE NOT (v)<-[:DEPENDS_ON]-()` query. -/
def find_unused_variables (g : List Edge) : List String :=
  (nodesOf g).filter (fun v => inDegree g v == 0)

/-- The metrics dictionary assembled by `get_metrics` (it always ends up
with exactly these keys). -/
structure MetricsResult where
  total_variables : Nat
  total_dependencies : Nat
  most_dependent : List (String × Nat)
  most_dependencies : List (String × Nat)
  isolated_variables : List String
  root_variables : List String
  leaf_variables : List String
  circular_dependencies : Nat
  cycles : List (List String)
deriving Repr, DecidableEq

/-- The `try/except` loop body of `get_metrics`: `fail k = true` means
the store raised on the query stored under key `k`, in which case the
entry defaults to `0` / `[]` with the exception dropped. -/
def getMetricsQueries (g : List Edge) (fail : String → Bool)
    (cyc : List (List String)) : MetricsResult :=
  { total_variables :=
      if fail "total_variables" then 0 else (nodesOf g).length
    total_dependencies :=
      if fail "total_dependencies" then 0 else (rels g).length
    most_dependent :=
      if fail "most_dependent" then [] else most_dependent g
    most_dependencies :=
      if fail "most_dependencies" then [] else most_dependencies g
    isolated_variables :=
      if fail "isolated_variables" then [] else isolated_variables g
    root_variables :=
      if fail "root_variables" then [] else root_variables g
    leaf_variables :=
      if fail "leaf_variables" then [] else leaf_variables g
    circular_dependencies := cyc.length
    cycles := cyc }

/-- `DependencyAnalyzer.get_metrics`: the seven guarded queries, then an
unguarded `detect_cycles` call whose store failure (`cyclesFail`)
escapes as an exception. -/
def get_metrics (g : List Edge) (fail : String → Bool)
    (cyclesFail : Bool) : Except Unit MetricsResult :=
  if cyclesFail then Except.error ()
  else Except.ok (getMetricsQueries g fail (detect_cycles g))

/-! ## loader._batch_create_relationships

```
UNWIND $data as row
MERGE (a:Variable {name: row.from_name})
MERGE (b:Variable {name: row.to_name})
MERGE (a)-[r:DEPENDS_ON]->(b)
ON CREATE SET r.line_number = row.line_number, r.filepath = row.filepath
```

The relationship store is modelled as a list of `(from, to, line, file)`
rows keyed by `(from, to)`; `ON CREATE SET` writes metadata only when
the relationship did not exist yet. -/

/-- One parsed dependency: `(assigned_var, used_var, line, filepath)`. -/
abbrev Dep := String × String × Nat × String

/-- The `(from, to)` key of a dependency row. -/
def depKey (d : Dep) : Edge := (d.1, d.2.1)

/-- Lookup of the stored relationship (with metadata) for a key. -/
def storeLookup : List Dep → Edge → Option Dep
  | [], _ => none
  | d :: t, k => if depKey d = k then some d else storeLookup t k

/-- `MERGE ... ON CREATE SET`: append the row only when its `(from,to)`
key is new; an existing relationship (and its metadata) is untouched. -/
def upsertEdge (st : List Dep) (d : Dep) : List Dep :=
  if (storeLookup st (depKey d)).isSome then st else st ++ [d]

/-- `UNWIND $data`: upsert each row in order. -/
def upsertEdges (st : List Dep) (ds : List Dep) : List Dep :=
  ds.foldl upsertEdge st

/-! ## parser.VariableDependencyFinder

The extractor embeds the fragment of the Python AST the visitor reacts
to.  `visit_Name` fires for every `Name` node in `Load` context while a
`current_assign_target` is set; `visit_Assign` handles a single `Name`
target and a single `Tuple` target (zipping when the value is a tuple),
silently ignoring every other target shape; `visit_AugAssign` records a
self-dependency and then visits the right-hand side. -/

/-- Expression fragment: `Name` nodes carry their context flag
(`isLoad`) and line number; other constructors only provide structure
for the generic visit. -/
inductive PyExpr where
  | nameE (id : String) (isLoad : Bool) (line : Nat)
  | constE (line : Nat)
  | tupleE (elts : List PyExpr) (line : Nat)
  | binOp (l r : PyExpr) (line : Nat)
  | callE (fn : PyExpr) (args : List PyExpr) (line : Nat)
deriving Repr

/-- Assignment-target shapes distinguished by `visit_Assign` /
`visit_AugAssign` through `isinstance` checks. -/
inductive PyTarget where
  | nameT (id : String)
  | tupleT (elts : List PyTarget)
  | attributeT
  | subscriptT
  | listT (elts : List PyTarget)
deriving Repr

/-- Statements the visitor overrides. -/
inductive PyStmt where
  | assign (targets : List PyTarget) (value : PyExpr) (line : Nat)
  | augAssign (target : PyTarget) (value : PyExpr) (line : Nat)
deriving Repr

mutual

/-- Names collected by `visit_Name` during a generic visit of an
expression: every `Name` in `Load` context, with its line, in AST
order. -/
def loadNames : PyExpr → List (String × Nat)
  | .nameE id isLoad ln => if isLoad then [(id, ln)] else []
  | .constE _ => []
  | .tupleE es _ => loadNamesList es
  | .binOp a b _ => loadNames a ++ loadNames b
  | .callE f as _ => loadNames f ++ loadNamesList as

/-- `loadNames` over a list of child expressions. -/
def loadNamesList : List PyExpr → List (String × Nat)
  | [] => []
  | e :: es => loadNames e ++ loadNamesList es

end

/-- Dependencies appended while one statement is visited
(`visit_Assign` / `visit_AugAssign` with `visit_Name` firing on the
right-hand sides). -/
def visitStmt (fp : String) : PyStmt → List Dep
  | .assign targets value _ =>
      match targets with
      | [t] =>
          match t with
          | .nameT x =>
              (loadNames value).map (fun p => (x, p.1, p.2, fp))
          | .tupleT elts =>
              match value with
              | .tupleE vs _ =>
                  (elts.zip vs).bind (fun pr =>
                    match pr.1 with
                    | .nameT x =>
                        (loadNames pr.2).map (fun p => (x, p.1, p.2, fp))
                    | _ => [])
              | v =>
                  elts.bind (fun t' =>
                    match t' with
                    | .nameT x =>
                        (loadNames v).map (fun p => (x, p.1, p.2, fp))
                    | _ => [])
          | _ => []
      | _ => []
  | .augAssign t value ln =>
      match t with
      | .nameT x =>
          (x, x, ln, fp) :: (loadNames value).map (fun p => (x, p.1, p.2, fp))
      | _ => []

/-- The `(assigned_var, used_var)`-keyed dedup loop of
`find_variable_deps` (first occurrence keeps its metadata). -/
def dedupDepsAux : List Dep → List Edge → List Dep
  | [], _ => []
  | d :: ds, seen =>
      if depKey d ∈ seen then dedupDepsAux ds seen
      else d :: dedupDepsAux ds (depKey d :: seen)

/-- `parser.find_variable_deps` on an already-parsed module: visit every
statement, then dedup by `(assigned_var, used_var)`. -/
def find_variable_deps (fp : String) (stmts : List PyStmt) : List Dep :=
  dedupDepsAux (stmts.bind (visitStmt fp)) []

/-! ## Claim theorems -/

/-- Claim C1: the claim says that for every graph containing a self-loop
edge `(v,v)`, `detect_cycles` reports `[v]` as one of its cycles even if
`v` is involved in no other edge.  The code does not: on the graph whose
only edge is the self-loop `(v,v)`, the Cypher pass's post-processing
loop requires at least two distinct accumulated names before it appends
a cycle, and the Tarjan pass keeps only components of size greater than
one, so `detect_cycles` returns no cycle at all. -/
theorem detect_cycles_drops_self_loop :
    detect_cycles [("v", "v")] = [] := by decide

/-- Claim C2: the claim says the reported depth is the minimum number of
edges on any path and that `direct` means depth 1.  On the graph
`a→b, b→c, a→c`, `find_dependencies a` reports depth 2 for `c` and
classifies `c` as transitive, although the single edge `(a,c)` is in the
store (so the minimum depth is 1): the rows arrive sorted by ascending
depth and the Python dict comprehension lets the last (deepest) row
overwrite the earlier ones. -/
theorem find_dependencies_reports_longest_depth :
    (find_dependencies [("a", "b"), ("b", "c"), ("a", "c")] "a").depths =
        [("b", 1), ("c", 2)] ∧
    (find_dependencies [("a", "b"), ("b", "c"), ("a", "c")] "a").direct_dependencies =
        ["b"] ∧
    (find_dependencies [("a", "b"), ("b", "c"), ("a", "c")] "a").transitive_dependencies =
        ["c"] ∧
    ("a", "c") ∈ rels [("a", "b"), ("b", "c"), ("a", "c")] := by decide

/-- Claim C9: `find_unused_variables` and the `root_variables` entry of
the metrics report are computed by separate queries with the same
in-degree-0 condition, and return the same name list on every graph
(when the store does not fail). -/
theorem unused_equals_root_variables (g : List Edge) :
    get_metrics g (fun _ => false) false =
      Except.ok (getMetricsQueries g (fun _ => false) (detect_cycles g)) ∧
    (getMetricsQueries g (fun _ => false) (detect_cycles g)).root_variables =
      find_unused_variables g :=
  ⟨rfl, rfl⟩

/-- Failure pattern used for the metrics error-handling claims: only the
`most_dependent` sub-query raises. -/
def failMostDependent : String → Bool := fun k => k == "most_dependent"

/-- Claim C3, counterexample: on the empty store, `get_metrics` returns
*identical* reports whether or not the `most_dependent` sub-query
failed, so the failure cannot have been recorded or surfaced to the
caller in any form — it is silently swallowed (the logging line in the
`except` branch is commented out, and the report has no error field). -/
theorem get_metrics_failure_indistinguishable :
    getMetricsQueries [] failMostDependent (detect_cycles []) =
      getMetricsQueries [] (fun _ => false) (detect_cycles []) ∧
    failMostDependent "most_dependent" = true ∧
    get_metrics [] failMostDependent false =
      Except.ok (getMetricsQueries [] failMostDependent (detect_cycles [])) :=
  ⟨by decide, by decide, rfl⟩

/-- Claim C3, amended: when one of the seven guarded sub-queries fails,
`get_metrics` does degrade gracefully — the failed entry defaults to an
empty value and every other entry is computed as usual — but nothing
about the failure is surfaced to the caller; and a store failure inside
the unguarded `detect_cycles` call aborts the whole report instead. -/
theorem get_metrics_defaults_silently (g : List Edge) (fail : String → Bool) :
    get_metrics g fail true = Except.error () ∧
    get_metrics g fail false =
      Except.ok (getMetricsQueries g fail (detect_cycles g)) ∧
    (getMetricsQueries g failMostDependent (detect_cycles g)).most_dependent = [] ∧
    { getMetricsQueries g failMostDependent (detect_cycles g) with
        most_dependent := most_dependent g } =
      getMetricsQueries g (fun _ => false) (detect_cycles g) :=
  ⟨rfl, rfl, rfl, rfl⟩

/-- Leaderboard ordering as the spec words it, for comparison with the
code: in-degree descending with ties broken by ascending name. -/
def specCountNameLe (p q : String × Nat) : Bool :=
  decide (q.2 < p.2) || (decide (p.2 = q.2) && strLe p.1 q.1)

/-- Fan-in leaderboard as described by the spec (top 10 by in-degree,
ties by ascending name); only used to compare against `most_dependent`. -/
def fanInLeaderboardSpec (g : List Edge) : List (String × Nat) :=
  (sortWith specCountNameLe
    (((nodesOf g).filter (fun v => decide (1 ≤ inDegree g v))).map
      (fun v => (v, inDegree g v)))).take 10

/-- Claim C4, counterexample: on the graph `p→b, q→a` both `a` and `b`
have in-degree 1, but the code's `ORDER BY count DESC` has no secondary
sort key, so the leaderboard keeps the store enumeration order `b, a`
instead of the ascending name order `a, b` the claim requires. -/
theorem most_dependent_ignores_name_tiebreak :
    most_dependent [("p", "b"), ("q", "a")] = [("b", 1), ("a", 1)] ∧
    fanInLeaderboardSpec [("p", "b"), ("q", "a")] = [("a", 1), ("b", 1)] ∧
    most_dependent [("p", "b"), ("q", "a")] ≠
      fanInLeaderboardSpec [("p", "b"), ("q", "a")] := by decide

/-! ### Sorted-prefix threshold lemmas (claim C4) -/

theorem pairwiseB_tail {α : Type} {le : α → α → Bool} {x : α} {l : List α}
    (h : pairwiseB le (x :: l) = true) : pairwiseB le l = true := by
  cases l with
  | nil => rfl
  | cons q qs =>
      simp only [pairwiseB, Bool.and_eq_true] at h
      exact h.2

theorem pairwiseB_head_le {α : Type} {le : α → α → Bool}
    (htr : ∀ a b c, le a b = true → le b c = true → le a c = true) :
    ∀ {l : List α} {x y : α}, pairwiseB le (x :: l) = true → y ∈ l →
      le x y = true := by
  intro l
  induction l with
  | nil => intro x y _ hy; exact absurd hy (List.not_mem_nil y)
  | cons q qs ih =>
      intro x y h hy
      have hxq : le x q = true := by
        simp only [pairwiseB, Bool.and_eq_true] at h
        exact h.1
      rcases List.mem_cons.1 hy with rfl | hy
      · exact hxq
      · exact htr x q y hxq (ih (pairwiseB_tail h) hy)

theorem pairwiseB_take_drop {α : Type} {le : α → α → Bool}
    (htr : ∀ a b c, le a b = true → le b c = true → le a c = true) :
    ∀ (l : List α) (n : Nat), pairwiseB le l = true →
      ∀ p ∈ l.take n, ∀ q ∈ l.drop n, le p q = true := by
  intro l
  induction l with
  | nil => intro n _ p hp; exact absurd hp (by simp)
  | cons x xs ih =>
      intro n h p hp q hq
      cases n with
      | zero => exact absurd hp (by simp)
      | succ m =>
          rw [List.take_succ_cons] at hp
          rw [List.drop_succ_cons] at hq
          rcases List.mem_cons.1 hp with rfl | hp
          · exact pairwiseB_head_le htr h (List.drop_subset m xs hq)
          · exact ih m (pairwiseB_tail h) p hp q hq

theorem countGe_trans : ∀ a b c : String × Nat,
    countGe a b = true → countGe b c = true → countGe a c = true := by
  intro a b c h1 h2
  simp only [countGe, decide_eq_true_eq] at h1 h2 ⊢
  exact Nat.le_trans h2 h1

/-- A row of the aggregation that is missing from the first ten rows of
the count-descending sort implies the prefix is full and every kept row
counts at least as much. -/
theorem take_threshold {M : List (String × Nat)} {x : String × Nat}
    (hx : x ∈ M)
    (hnot : x ∉ (sortWith countGe M).take 10) :
    ((sortWith countGe M).take 10).length = 10 ∧
    ∀ p ∈ (sortWith countGe M).take 10, x.2 ≤ p.2 := by
  have htot : ∀ p q : String × Nat, countGe p q = true ∨ countGe q p = true := by
    intro p q
    simp only [countGe, decide_eq_true_eq]
    exact (Nat.le_total q.2 p.2).imp id id
  have hsorted := pairwiseB_sortWith htot M
  have hmem : x ∈ sortWith countGe M := (mem_sortWith countGe x M).2 hx
  have hsplit : x ∈ (sortWith countGe M).take 10 ++ (sortWith countGe M).drop 10 := by
    rw [List.take_append_drop]
    exact hmem
  have hxdrop : x ∈ (sortWith countGe M).drop 10 := by
    rcases List.mem_append.1 hsplit with h | h
    · exact absurd h hnot
    · exact h
  constructor
  · have hlen : 10 < (sortWith countGe M).length := by
      by_contra hle
      rw [List.drop_eq_nil_iff.2 (by omega)] at hxdrop
      exact absurd hxdrop (List.not_mem_nil x)
    rw [List.length_take]
    omega
  · intro p hp
    have hge := pairwiseB_take_drop countGe_trans (sortWith countGe M) 10
      hsorted p hp x hxdrop
    simpa [countGe] using hge

/-- Claim C4, amended: each leaderboard lists at most ten nodes of
positive degree with their exact in-(resp. out-)degree, ordered by count
descending, and it is a genuine top-10 selection: whenever a node of
positive degree is left out, the list already holds ten rows and every
listed row's count is at least the omitted node's degree.  What the
counterexample removes from the claim is only the tie rule: rows with
equal counts keep the store enumeration order instead of ascending name
order, so the tie order is not deterministic by name. -/
theorem leaderboards_sorted_by_degree (g : List Edge) :
    (pairwiseB countGe (most_dependent g) = true ∧
     (most_dependent g).length ≤ 10 ∧
     (most_dependent g).all
       (fun p => p.2 == inDegree g p.1 && decide (1 ≤ p.2)) = true ∧
     (∀ w ∈ nodesOf g, 1 ≤ inDegree g w →
        w ∉ (most_dependent g).map Prod.fst →
        (most_dependent g).length = 10 ∧
        ∀ p ∈ most_dependent g, inDegree g w ≤ p.2)) ∧
    (pairwiseB countGe (most_dependencies g) = true ∧
     (most_dependencies g).length ≤ 10 ∧
     (most_dependencies g).all
       (fun p => p.2 == outDegree g p.1 && decide (1 ≤ p.2)) = true ∧
     (∀ w ∈ nodesOf g, 1 ≤ outDegree g w →
        w ∉ (most_dependencies g).map Prod.fst →
        (most_dependencies g).length = 10 ∧
        ∀ p ∈ most_dependencies g, outDegree g w ≤ p.2)) := by
  have htot : ∀ p q : String × Nat, countGe p q = true ∨ countGe q p = true := by
    intro p q
    simp only [countGe, decide_eq_true_eq]
    exact (Nat.le_total q.2 p.2).imp id id
  refine ⟨⟨?_, ?_, ?_, ?_⟩, ⟨?_, ?_, ?_, ?_⟩⟩
  · exact pairwiseB_take _ _ _ (pairwiseB_sortWith htot _)
  · exact List.length_take_le ..
  · rw [List.all_eq_true]
    intro p hp
    have hp' := (mem_sortWith countGe p _).1 (List.mem_of_mem_take hp)
    rcases List.mem_map.1 hp' with ⟨v, hv, rfl⟩
    rcases List.mem_filter.1 hv with ⟨_, hdeg⟩
    simp only [Bool.and_eq_true, beq_iff_eq, decide_eq_true_eq] at hdeg ⊢
    exact ⟨trivial, hdeg⟩
  · intro w hw hdeg hnot
    have hxM : (w, inDegree g w) ∈
        ((nodesOf g).filter (fun v => decide (1 ≤ inDegree g v))).map
          (fun v => (v, inDegree g v)) :=
      List.mem_map.2 ⟨w, List.mem_filter.2 ⟨hw, by simpa using hdeg⟩, rfl⟩
    have hnot9 : (w, inDegree g w) ∉
        (sortWith countGe (((nodesOf g).filter
          (fun v => decide (1 ≤ inDegree g v))).map
            (fun v => (v, inDegree g v)))).take 10 := by
      intro hmem
      exact hnot (List.mem_map.2 ⟨(w, inDegree g w), hmem, rfl⟩)
    exact take_threshold hxM hnot9
  · exact pairwiseB_take _ _ _ (pairwiseB_sortWith htot _)
  · exact List.length_take_le ..
  · rw [List.all_eq_true]
    intro p hp
    have hp' := (mem_sortWith countGe p _).1 (List.mem_of_mem_take hp)
    rcases List.mem_map.1 hp' with ⟨v, hv, rfl⟩
    rcases List.mem_filter.1 hv with ⟨_, hdeg⟩
    simp only [Bool.and_eq_true, beq_iff_eq, decide_eq_true_eq] at hdeg ⊢
    exact ⟨trivial, hdeg⟩
  · intro w hw hdeg hnot
    have hxM : (w, outDegree g w) ∈
        ((nodesOf g).filter (fun v => decide (1 ≤ outDegree g v))).map
          (fun v => (v, outDegree g v)) :=
      List.mem_map.2 ⟨w, List.mem_filter.2 ⟨hw, by simpa using hdeg⟩, rfl⟩
    have hnot9 : (w, outDegree g w) ∉
        (sortWith countGe (((nodesOf g).filter
          (fun v => decide (1 ≤ outDegree g v))).map
            (fun v => (v, outDegree g v)))).take 10 := by
      intro hmem
      exact hnot (List.mem_map.2 ⟨(w, outDegree g w), hmem, rfl⟩)
    exact take_threshold hxM hnot9

/-- Claim C4, witness: eleven nodes of in-degree one leave one node off
the fan-in leaderboard, and the theorem yields that the leaderboard is
full with ten rows. -/
theorem leaderboards_sorted_by_degree_witness :
    (most_dependent [("s", "a1"), ("s", "a2"), ("s", "a3"), ("s", "a4"),
      ("s", "a5"), ("s", "a6"), ("s", "a7"), ("s", "a8"), ("s", "a9"),
      ("s", "b1"), ("s", "b2")]).length = 10 :=
  ((leaderboards_sorted_by_degree [("s", "a1"), ("s", "a2"), ("s", "a3"),
      ("s", "a4"), ("s", "a5"), ("s", "a6"), ("s", "a7"), ("s", "a8"),
      ("s", "a9"), ("s", "b1"), ("s", "b2")]).1.2.2.2 "b2"
    (by decide) (by decide) (by decide)).1

/-! ### Upsert algebra (claim C6) -/

theorem storeLookup_append (st : List Dep) (d : Dep) (k : Edge) :
    storeLookup (st ++ [d]) k =
      match storeLookup st k with
      | some x => some x
      | none => if depKey d = k then some d else none := by
  induction st with
  | nil => simp [storeLookup]
  | cons e t ih =>
      by_cases h : depKey e = k
      · simp [storeLookup, h]
      · simp only [List.cons_append, storeLookup, if_neg h]
        exact ih

theorem storeLookup_upsertEdge_pres {st : List Dep} {k : Edge} {d0 : Dep}
    (d : Dep) (h : storeLookup st k = some d0) :
    storeLookup (upsertEdge st d) k = some d0 := by
  unfold upsertEdge
  by_cases hp : (storeLookup st (depKey d)).isSome
  · simp [hp, h]
  · simp only [hp, if_false, Bool.false_eq_true]
    rw [storeLookup_append, h]

theorem storeLookup_upsertEdges_pres :
    ∀ (ds : List Dep) (st : List Dep) (k : Edge) (d0 : Dep),
      storeLookup st k = some d0 →
      storeLookup (upsertEdges st ds) k = some d0 := by
  intro ds
  induction ds with
  | nil => intro st k d0 h; exact h
  | cons d t ih =>
      intro st k d0 h
      exact ih (upsertEdge st d) k d0 (storeLookup_upsertEdge_pres d h)

theorem storeLookup_upsertEdge_self (st : List Dep) (d : Dep) :
    (storeLookup (upsertEdge st d) (depKey d)).isSome = true := by
  unfold upsertEdge
  by_cases hp : (storeLookup st (depKey d)).isSome
  · simp [hp]
  · simp only [hp, if_false, Bool.false_eq_true]
    rw [storeLookup_append]
    cases hs : storeLookup st (depKey d) with
    | some x => simp
    | none => simp

theorem storeLookup_upsertEdges_isSome {st : List Dep} {k : Edge}
    (ds : List Dep) (h : (storeLookup st k).isSome = true) :
    (storeLookup (upsertEdges st ds) k).isSome = true := by
  cases hs : storeLookup st k with
  | none => rw [hs] at h; simp at h
  | some d0 => rw [storeLookup_upsertEdges_pres ds st k d0 hs]; rfl

theorem upsertEdges_keys_present :
    ∀ (ds : List Dep) (st : List Dep) (d : Dep), d ∈ ds →
      (storeLookup (upsertEdges st ds) (depKey d)).isSome = true := by
  intro ds
  induction ds with
  | nil => intro st d h; simp at h
  | cons e t ih =>
      intro st d h
      rcases List.mem_cons.1 h with rfl | h
      · exact storeLookup_upsertEdges_isSome t (storeLookup_upsertEdge_self st d)
      · exact ih (upsertEdge st e) d h

theorem upsertEdges_no_op :
    ∀ (ds : List Dep) (st : List Dep),
      (∀ d ∈ ds, (storeLookup st (depKey d)).isSome = true) →
      upsertEdges st ds = st := by
  intro ds
  induction ds with
  | nil => intro st _; rfl
  | cons e t ih =>
      intro st h
      have he : upsertEdge st e = st := by
        unfold upsertEdge
        simp [h e (by simp)]
      show upsertEdges (upsertEdge st e) t = st
      rw [he]
      exact ih st (fun d hd => h d (by simp [hd]))

/-- Claim C6: upserting a file's dependency rows is idempotent — running
the same batch twice leaves exactly the store produced by running it
once (hence the same `(from, to)` edge set) — and the line/file metadata
stored for a `(from, to)` key that is already present is kept unchanged
by any later upsert (`ON CREATE SET` only fires on creation). -/
theorem upsert_idempotent_first_wins (st ds : List Dep) :
    upsertEdges (upsertEdges st ds) ds = upsertEdges st ds ∧
    ∀ k d0, storeLookup st k = some d0 →
      storeLookup (upsertEdges st ds) k = some d0 :=
  ⟨upsertEdges_no_op ds (upsertEdges st ds)
      (fun d hd => upsertEdges_keys_present ds st d hd),
   fun k d0 h => storeLookup_upsertEdges_pres ds st k d0 h⟩

/-- Claim C6, witness: a duplicate `(a, b)` row with different metadata
neither duplicates the edge nor overwrites the first row's metadata. -/
theorem upsert_idempotent_first_wins_witness :
    upsertEdges (upsertEdges [("a", "b", 1, "f")] [("a", "b", 9, "g")])
        [("a", "b", 9, "g")] =
      upsertEdges [("a", "b", 1, "f")] [("a", "b", 9, "g")] ∧
    storeLookup (upsertEdges [("a", "b", 1, "f")] [("a", "b", 9, "g")])
        ("a", "b") = some ("a", "b", 1, "f") :=
  ⟨(upsert_idempotent_first_wins [("a", "b", 1, "f")] [("a", "b", 9, "g")]).1,
   (upsert_idempotent_first_wins [("a", "b", 1, "f")] [("a", "b", 9, "g")]).2
     ("a", "b") ("a", "b", 1, "f") (by decide)⟩

/-! ### Extractor dedup lemmas (claim C7) -/

theorem firstDedupAux_congr {α : Type} [DecidableEq α] :
    ∀ (l s s' : List α), (∀ y, y ∈ s ↔ y ∈ s') →
      firstDedupAux l s = firstDedupAux l s' := by
  intro l
  induction l with
  | nil => intro s s' _; rfl
  | cons x xs ih =>
      intro s s' hss
      by_cases hx : x ∈ s
      · rw [firstDedupAux, if_pos hx, firstDedupAux, if_pos ((hss x).1 hx)]
        exact ih s s' hss
      · rw [firstDedupAux, if_neg hx, firstDedupAux,
          if_neg (fun h => hx ((hss x).2 h))]
        refine congrArg _ (ih (x :: s) (x :: s') ?_)
        intro y
        simp [hss y]

theorem firstDedupAux_cons_seen {α : Type} [DecidableEq α] :
    ∀ (l : List α) (s : List α) (a : α),
      firstDedupAux l (a :: s) = firstDedupAux (l.filter (· != a)) s := by
  intro l
  induction l with
  | nil => intro s a; rfl
  | cons x xs ih =>
      intro s a
      by_cases hxa : x = a
      · subst hxa
        rw [firstDedupAux, if_pos (by simp), List.filter_cons_of_neg (by simp)]
        exact ih s x
      · rw [List.filter_cons_of_pos (by simp [hxa])]
        by_cases hxs : x ∈ s
        · rw [firstDedupAux, if_pos (by simp [hxs]),
            firstDedupAux, if_pos hxs]
          exact ih s a
        · rw [firstDedupAux, if_neg (by simp [hxa, hxs]),
            firstDedupAux, if_neg hxs]
          refine congrArg _ ?_
          rw [firstDedupAux_congr xs (x :: a :: s) (a :: x :: s)
            (by intro y; simp; tauto)]
          exact ih (x :: s) a

theorem dedupDepsAux_mapped_keys (x fp : String) :
    ∀ (ps : List (String × Nat)) (s : List String),
      (dedupDepsAux (ps.map (fun p => (x, p.1, p.2, fp)))
          (s.map (fun n => (x, n)))).map depKey =
        (firstDedupAux (ps.map Prod.fst) s).map (fun n => (x, n)) := by
  intro ps
  induction ps with
  | nil => intro s; rfl
  | cons p ps ih =>
      intro s
      have hkey : depKey (x, p.1, p.2, fp) = (x, p.1) := rfl
      by_cases hs : p.1 ∈ s
      · rw [List.map_cons, dedupDepsAux, if_pos
          (by rw [hkey]; exact List.mem_map.2 ⟨p.1, hs, rfl⟩)]
        rw [List.map_cons, firstDedupAux, if_pos hs]
        exact ih s
      · rw [List.map_cons, dedupDepsAux, if_neg (by
          rw [hkey]
          intro hmem
          rcases List.mem_map.1 hmem with ⟨n, hn, he⟩
          exact hs (by cases he; exact hn))]
        have hr : (firstDedupAux ((p :: ps).map Prod.fst) s).map
              (fun n => (x, n)) =
            (x, p.1) :: (firstDedupAux (ps.map Prod.fst) (p.1 :: s)).map
              (fun n => (x, n)) := by
          rw [List.map_cons, firstDedupAux, if_neg hs, List.map_cons]
        rw [hr, List.map_cons]
        refine congrArg _ ?_
        have hsn : (depKey (x, p.1, p.2, fp) :: s.map (fun n => (x, n))) =
            (p.1 :: s).map (fun n => (x, n)) := rfl
        rw [hsn]
        exact ih (p.1 :: s)

/-- Claim C7: for a compound assignment `x op= expr` with a plain-name
target, the extractor's deduplicated output consists of exactly one
self-loop edge `(x, x)` followed by one edge `(x, n)` for each distinct
name `n ≠ x` read in `expr`, in first-read order (a read of `x` itself
collapses into the self-loop). -/
theorem augassign_emits_self_loop_and_reads (fp x : String) (e : PyExpr)
    (ln : Nat) :
    (find_variable_deps fp [PyStmt.augAssign (PyTarget.nameT x) e ln]).map
        depKey =
      (x, x) ::
        (firstDedup (((loadNames e).map Prod.fst).filter (· != x))).map
          (fun n => (x, n)) := by
  show (dedupDepsAux ((x, x, ln, fp) ::
      (loadNames e).map (fun p => (x, p.1, p.2, fp)) ++ []) []).map depKey = _
  rw [List.append_nil, dedupDepsAux, if_neg (by simp)]
  rw [List.map_cons]
  refine congrArg _ ?_
  have hseen : [depKey (x, x, ln, fp)] = [x].map (fun n => (x, n)) := rfl
  rw [hseen, dedupDepsAux_mapped_keys x fp (loadNames e) [x]]
  rw [firstDedupAux_cons_seen ((loadNames e).map Prod.fst) [] x]
  rfl

/-- Helper for claim C10: dependencies emitted by the non-tuple-value
branch of a tuple-target assignment are assigned to plain-name target
elements only. -/
theorem mem_bind_targets {fp : String} {v : PyExpr} {elts : List PyTarget}
    {d : Dep}
    (hd : d ∈ elts.bind (fun t' =>
      match t' with
      | PyTarget.nameT x => (loadNames v).map (fun p => (x, p.1, p.2, fp))
      | _ => [])) : PyTarget.nameT d.1 ∈ elts := by
  rcases List.mem_bind.1 hd with ⟨t', ht', hmem⟩
  cases t' with
  | nameT x =>
      rcases List.mem_map.1 hmem with ⟨p, _, rfl⟩
      exact ht'
  | tupleT es => exact absurd hmem (List.not_mem_nil d)
  | attributeT => exact absurd hmem (List.not_mem_nil d)
  | subscriptT => exact absurd hmem (List.not_mem_nil d)
  | listT es => exact absurd hmem (List.not_mem_nil d)

/-- Helper for claim C10: dependencies emitted by the zipped
tuple-to-tuple branch are assigned to plain-name target elements only. -/
theorem mem_zip_targets {fp : String} {elts : List PyTarget}
    {vs : List PyExpr} {d : Dep}
    (hd : d ∈ (elts.zip vs).bind (fun pr =>
      match pr.1 with
      | PyTarget.nameT x => (loadNames pr.2).map (fun p => (x, p.1, p.2, fp))
      | _ => [])) : PyTarget.nameT d.1 ∈ elts := by
  rcases List.mem_bind.1 hd with ⟨pr, hpr, hmem⟩
  rcases pr with ⟨t1, v1⟩
  have hzip := List.of_mem_zip hpr
  cases t1 with
  | nameT x =>
      rcases List.mem_map.1 hmem with ⟨p, _, rfl⟩
      exact hzip.1
  | tupleT es => exact absurd hmem (List.not_mem_nil d)
  | attributeT => exact absurd hmem (List.not_mem_nil d)
  | subscriptT => exact absurd hmem (List.not_mem_nil d)
  | listT es => exact absurd hmem (List.not_mem_nil d)

/-- Claim C10: an assignment whose single target is an attribute, a
subscript or a list pattern emits no dependency at all (its right-hand
side names are dropped), and in a tuple-target assignment every emitted
dependency is assigned to a plain-name element of the tuple — elements
of any other shape contribute nothing. -/
theorem non_name_targets_emit_nothing :
    (∀ (fp : String) (v : PyExpr) (ln : Nat) (ts : List PyTarget),
      visitStmt fp (PyStmt.assign [PyTarget.attributeT] v ln) = [] ∧
      visitStmt fp (PyStmt.assign [PyTarget.subscriptT] v ln) = [] ∧
      visitStmt fp (PyStmt.assign [PyTarget.listT ts] v ln) = []) ∧
    (∀ (fp : String) (elts : List PyTarget) (v : PyExpr) (ln : Nat) (d : Dep),
      d ∈ visitStmt fp (PyStmt.assign [PyTarget.tupleT elts] v ln) →
      PyTarget.nameT d.1 ∈ elts) := by
  constructor
  · intro fp v ln ts
    exact ⟨rfl, rfl, rfl⟩
  · intro fp elts v ln d hd
    cases v with
    | tupleE vs lv => exact mem_zip_targets hd
    | nameE id il lv => exact mem_bind_targets hd
    | constE lv => exact mem_bind_targets hd
    | binOp a b lv => exact mem_bind_targets hd
    | callE f as lv => exact mem_bind_targets hd

/-- Claim C10, witness: `[a, b] = c` emits nothing although both list
elements are plain names, and in a tuple assignment whose second element
is a subscript the only emitted dependency is assigned to the plain-name
element `a`. -/
theorem non_name_targets_emit_nothing_witness :
    visitStmt "f"
      (PyStmt.assign [PyTarget.listT [PyTarget.nameT "a", PyTarget.nameT "b"]]
        (PyExpr.nameE "c" true 3) 3) = [] ∧
    PyTarget.nameT "a" ∈ [PyTarget.nameT "a", PyTarget.subscriptT] :=
  ⟨(non_name_targets_emit_nothing.1 "f" (PyExpr.nameE "c" true 3) 3
      [PyTarget.nameT "a", PyTarget.nameT "b"]).2.2,
   non_name_targets_emit_nothing.2 "f" [PyTarget.nameT "a", PyTarget.subscriptT]
     (PyExpr.tupleE [PyExpr.nameE "p" true 1, PyExpr.nameE "q" true 1] 1) 1
     ("a", "p", 1, "f") (by decide)⟩

/-! ### Trail-splicing lemmas (claim C8) -/

theorem trail_length_le {g : List Edge} {tr : List Edge}
    (hnd : tr.Nodup) (hsub : ∀ e ∈ tr, e ∈ rels g) :
    tr.length ≤ (rels g).length :=
  (List.subperm_of_subset hnd hsub).length_le

theorem mem_trailsFromTo {g : List Edge} {u v : String} {tr : List Edge}
    (h : IsTrailOf g u tr) (hne : tr ≠ []) (hend : trailTarget u tr = v) :
    tr ∈ trailsFromTo g u v := by
  obtain ⟨hnd, hsub, hch⟩ := h
  rw [trailsFromTo, List.mem_filter]
  refine ⟨trailsAux_complete tr (rels g) (rels g).length u hch hnd hsub
    (trail_length_le hnd hsub), ?_⟩
  simp [Bool.and_eq_true, Bool.not_eq_true', List.isEmpty_eq_false,
    hne, hend]

theorem chainB_append :
    ∀ (s t : List Edge) (u : String),
      chainB u (s ++ t) = (chainB u s && chainB (trailTarget u s) t) := by
  intro s
  induction s with
  | nil => intro t u; simp [chainB, trailTarget]
  | cons e es ih =>
      intro t u
      simp only [List.cons_append, List.append_eq, chainB, trailTarget, ih,
        Bool.and_assoc]

theorem trailTarget_append :
    ∀ (s t : List Edge) (u : String),
      trailTarget u (s ++ t) = trailTarget (trailTarget u s) t := by
  intro s
  induction s with
  | nil => intro t u; rfl
  | cons e es ih =>
      intro t u
      simp only [List.cons_append, List.append_eq, trailTarget, ih]

/-- Any reachability witness can be turned into a relationship-unique
trail: extending a trail by one edge either stays edge-unique or can be
cut off at the first earlier use of that edge. -/
theorem trail_of_reaches {g : List Edge} {a b : String}
    (h : Reaches g a b) :
    ∃ tr, IsTrailOf g a tr ∧ tr ≠ [] ∧ trailTarget a tr = b := by
  induction h with
  | single hstep =>
      rename_i c
      refine ⟨[(a, c)], ⟨List.nodup_singleton _, ?_, by simp [chainB]⟩, by simp, rfl⟩
      intro e he
      rw [List.mem_singleton.1 he]
      exact hstep
  | tail hab hbc ih =>
      rename_i c d
      obtain ⟨tr, ⟨hnd, hsub, hch⟩, hne, hend⟩ := ih
      by_cases hmem : (c, d) ∈ tr
      · rcases List.append_of_mem hmem with ⟨t1, t2, rfl⟩
        refine ⟨t1 ++ [(c, d)], ⟨?_, ?_, ?_⟩, by simp, ?_⟩
        · refine List.Nodup.sublist ?_ hnd
          exact List.Sublist.append_left
            (List.Sublist.cons_cons _ (List.nil_sublist t2)) t1
        · intro e he
          rcases List.mem_append.1 he with h1 | h1
          · exact hsub e (List.mem_append.2 (Or.inl h1))
          · rw [List.mem_singleton.1 h1]
            exact hbc
        · have hfull := hch
          rw [chainB_append] at hfull ⊢
          simp only [Bool.and_eq_true] at hfull ⊢
          refine ⟨hfull.1, ?_⟩
          have h2 := hfull.2
          simp only [chainB, Bool.and_eq_true] at h2 ⊢
          exact ⟨h2.1, trivial⟩
        · rw [trailTarget_append]
          rfl
      · refine ⟨tr ++ [(c, d)], ⟨?_, ?_, ?_⟩, by simp, ?_⟩
        · rw [List.nodup_append]
          refine ⟨hnd, List.nodup_singleton _, ?_⟩
          intro x hx hy
          rw [List.mem_singleton.1 hy] at hx
          exact hmem hx
        · intro e he
          rcases List.mem_append.1 he with h1 | h1
          · exact hsub e h1
          · rw [List.mem_singleton.1 h1]
            exact hbc
        · rw [chainB_append, hend]
          simp [chainB, hch]
        · rw [trailTarget_append, hend]
          rfl

/-- Claim C8, main theorem: `find_path` is total and returns the empty
list exactly when `to` is not reachable from `from` along at least one
edge (which covers both the unreachable case and `from = to` with no
cycle through that node); every returned row is the node list of a
genuine dependency trail from `from` to `to`; and the rows are ordered
by nondecreasing edge count and capped at 20. -/
theorem find_path_results_characterized (g : List Edge) (a b : String) :
    (find_path g a b = [] ↔ ¬ Reaches g a b) ∧
    (∀ row ∈ find_path g a b, ∃ tr, IsTrailOf g a tr ∧ tr ≠ [] ∧
        trailTarget a tr = b ∧ row = pathNames a tr) ∧
    pairwiseB lenLe (find_path g a b) = true ∧
    (find_path g a b).length ≤ 20 := by
  refine ⟨⟨?_, ?_⟩, ?_, ?_, ?_⟩
  · intro hempty hre
    obtain ⟨tr, htr, hne, hend⟩ := trail_of_reaches hre
    have hmemft := mem_trailsFromTo htr hne hend
    have hmem2 : pathNames a tr ∈
        sortWith lenLe ((trailsFromTo g a b).map (pathNames a)) :=
      (mem_sortWith lenLe _ _).2 (List.mem_map.2 ⟨tr, hmemft, rfl⟩)
    have h0 : (sortWith lenLe ((trailsFromTo g a b).map (pathNames a))).take 20
        = [] := hempty
    rcases List.take_eq_nil_iff.1 h0 with h20 | hnil
    · exact absurd h20 (by decide)
    · rw [hnil] at hmem2
      exact absurd hmem2 (List.not_mem_nil _)
  · intro hnr
    have hempty : trailsFromTo g a b = [] := by
      rw [trailsFromTo, List.filter_eq_nil_iff]
      intro tr htr hcond
      simp only [Bool.and_eq_true, Bool.not_eq_true', List.isEmpty_eq_false,
        beq_iff_eq] at hcond
      obtain ⟨hch, hsub, _⟩ :=
        trailsAux_sound (rels g).length (rels g) a tr (nodup_rels g) htr
      have := reaches_of_trail tr a hcond.1 hch hsub
      rw [hcond.2] at this
      exact hnr this
    rw [find_path, hempty]
    rfl
  · intro row hrow
    have h1 : row ∈ sortWith lenLe ((trailsFromTo g a b).map (pathNames a)) :=
      List.mem_of_mem_take hrow
    have h2 := (mem_sortWith lenLe row _).1 h1
    rcases List.mem_map.1 h2 with ⟨tr, htr, rfl⟩
    rw [trailsFromTo, List.mem_filter] at htr
    obtain ⟨hmemaux, hcond⟩ := htr
    simp only [Bool.and_eq_true, Bool.not_eq_true', List.isEmpty_eq_false,
      beq_iff_eq] at hcond
    obtain ⟨hch, hsub, hnd⟩ :=
      trailsAux_sound (rels g).length (rels g) a tr (nodup_rels g) hmemaux
    exact ⟨tr, ⟨hnd, hsub, hch⟩, hcond.1, hcond.2, rfl⟩
  · have htot : ∀ p q : List String, lenLe p q = true ∨ lenLe q p = true := by
      intro p q
      simp only [lenLe, decide_eq_true_eq]
      exact (Nat.le_total p.length q.length).imp id id
    exact pairwiseB_take _ _ _ (pairwiseB_sortWith htot _)
  · exact List.length_take_le ..

/-- Claim C8, witness: on `a→b` the unreachable query `find_path b a`
and the no-cycle self query `find_path a a` are empty; on `a→b→c` the
query `find_path a c` is nonempty (and in fact is the one-row list
holding the single trail's node names). -/
theorem find_path_results_characterized_witness :
    find_path [("a", "b")] "b" "a" = [] ∧
    find_path [("a", "b")] "a" "a" = [] ∧
    find_path [("a", "b"), ("b", "c")] "a" "c" ≠ [] ∧
    find_path [("a", "b"), ("b", "c")] "a" "c" = [["a", "b", "c"]] := by
  refine ⟨?_, ?_, ?_, by decide⟩
  · refine (find_path_results_characterized [("a", "b")] "b" "a").1.2 ?_
    refine not_transGen_of_no_step ?_
    intro c hc
    have : ("b", c) = ("a", "b") := by
      simpa [StepRel, rels, firstDedup, firstDedupAux] using hc
    have hba : ("b" : String) = "a" := congrArg Prod.fst this
    exact absurd hba (by decide)
  · refine (find_path_results_characterized [("a", "b")] "a" "a").1.2 ?_
    intro hr
    rcases (Relation.TransGen.head'_iff).1 hr with ⟨c, hc, hcr⟩
    have hcb : c = "b" := by
      have : ("a", c) = ("a", "b") := by
        simpa [StepRel, rels, firstDedup, firstDedupAux] using hc
      exact congrArg Prod.snd this
    subst hcb
    rcases (Relation.ReflTransGen.cases_head hcr) with heq | ⟨d, hd, _⟩
    · exact absurd heq (by decide)
    · have : ("b", d) = ("a", "b") := by
        simpa [StepRel, rels, firstDedup, firstDedupAux] using hd
      have hba : ("b" : String) = "a" := congrArg Prod.fst this
      exact absurd hba (by decide)
  · intro heq
    have h1 : StepRel [("a", "b"), ("b", "c")] "a" "b" := by
      show ("a", "b") ∈ rels [("a", "b"), ("b", "c")]
      decide
    have h2 : StepRel [("a", "b"), ("b", "c")] "b" "c" := by
      show ("b", "c") ∈ rels [("a", "b"), ("b", "c")]
      decide
    have hre : Reaches [("a", "b"), ("b", "c")] "a" "c" :=
      Relation.TransGen.head h1 (Relation.TransGen.single h2)
    exact (find_path_results_characterized [("a", "b"), ("b", "c")]
      "a" "c").1.1 heq hre

/-! ### Reachability-set lemmas (claim C5) -/

theorem trailTarget_mem :
    ∀ (tr : List Edge) (u : String), tr ≠ [] →
      ∃ e ∈ tr, trailTarget u tr = e.2 := by
  intro tr
  induction tr with
  | nil => intro u h; exact absurd rfl h
  | cons e t ih =>
      intro u _
      cases t with
      | nil => exact ⟨e, by simp, rfl⟩
      | cons f s =>
          rcases ih e.2 (by simp) with ⟨w, hw, heq⟩
          exact ⟨w, by simp [List.mem_cons.1 hw], heq⟩

theorem first_source_mem_nodes {g : List Edge} {u : String} {tr : List Edge}
    (h : IsTrailOf g u tr) (hne : tr ≠ []) : u ∈ nodesOf g := by
  obtain ⟨_, hsub, hch⟩ := h
  cases tr with
  | nil => exact absurd rfl hne
  | cons e t =>
      simp only [chainB, Bool.and_eq_true, beq_iff_eq] at hch
      have := fst_mem_nodesOf (hsub e (by simp))
      rwa [hch.1] at this

theorem not_self_mem_impact (g : List Edge) (v : String) :
    v ∉ (find_impact g v).affected_variables := by
  intro h
  have hform : (find_impact g v).affected_variables =
      (impactRecords g v).map Prod.fst := rfl
  rw [hform] at h
  rcases List.mem_map.1 h with ⟨p, hp, hfst⟩
  have hp1 := (mem_sortWith recLe p _).1 hp
  have hp2 := (mem_firstDedup _ p).1 hp1
  rcases List.mem_bind.1 hp2 with ⟨u, _, hpm⟩
  by_cases huv : u = v
  · rw [if_pos huv] at hpm
    exact absurd hpm (List.not_mem_nil p)
  · rw [if_neg huv] at hpm
    rcases List.mem_map.1 hpm with ⟨tr, _, rfl⟩
    exact huv hfst

theorem not_self_mem_deps (g : List Edge) (v : String) :
    v ∉ (find_dependencies g v).all_dependencies := by
  intro h
  have hform : (find_dependencies g v).all_dependencies =
      (dependencyRecords g v).map Prod.fst := rfl
  rw [hform] at h
  rcases List.mem_map.1 h with ⟨p, hp, hfst⟩
  have hp1 := (mem_sortWith recLe p _).1 hp
  have hp2 := (mem_firstDedup _ p).1 hp1
  rcases List.mem_bind.1 hp2 with ⟨u, _, hpm⟩
  by_cases huv : u = v
  · rw [if_pos huv] at hpm
    exact absurd hpm (List.not_mem_nil p)
  · rw [if_neg huv] at hpm
    rcases List.mem_map.1 hpm with ⟨tr, _, rfl⟩
    exact huv hfst

/-- Claim C5: for every graph and node `v`, `v` itself never appears in
the result set of `find_impact v` or `find_dependencies v` — even when
`v` lies on a cycle — while any *other* node connected to `v` by a trail
in the query direction does appear (so other members of a cycle through
`v` are reported). -/
theorem self_excluded_others_reported :
    (∀ (g : List Edge) (v : String),
      v ∉ (find_impact g v).affected_variables ∧
      v ∉ (find_dependencies g v).all_dependencies) ∧
    (∀ (g : List Edge) (v u : String) (trI trD : List Edge), u ≠ v →
      IsTrailOf g u trI → trI ≠ [] → trailTarget u trI = v →
      IsTrailOf g v trD → trD ≠ [] → trailTarget v trD = u →
      u ∈ (find_impact g v).affected_variables ∧
      u ∈ (find_dependencies g v).all_dependencies) := by
  constructor
  · intro g v
    exact ⟨not_self_mem_impact g v, not_self_mem_deps g v⟩
  · intro g v u trI trD huv hI hIne hIend hD hDne hDend
    constructor
    · have hform : (find_impact g v).affected_variables =
          (impactRecords g v).map Prod.fst := rfl
      rw [hform]
      refine List.mem_map.2 ⟨(u, trI.length), ?_, rfl⟩
      refine (mem_sortWith recLe _ _).2 ((mem_firstDedup _ _).2 ?_)
      refine List.mem_bind.2 ⟨u, first_source_mem_nodes hI hIne, ?_⟩
      rw [if_neg huv]
      exact List.mem_map.2 ⟨trI, mem_trailsFromTo hI hIne hIend, rfl⟩
    · have hform : (find_dependencies g v).all_dependencies =
          (dependencyRecords g v).map Prod.fst := rfl
      rw [hform]
      refine List.mem_map.2 ⟨(u, trD.length), ?_, rfl⟩
      refine (mem_sortWith recLe _ _).2 ((mem_firstDedup _ _).2 ?_)
      have humem : u ∈ nodesOf g := by
        rcases trailTarget_mem trD v hDne with ⟨e, he, heq⟩
        have := snd_mem_nodesOf (hD.2.1 e he)
        rw [heq] at hDend
        rwa [hDend] at this
      refine List.mem_bind.2 ⟨u, humem, ?_⟩
      rw [if_neg huv]
      exact List.mem_map.2 ⟨trD, mem_trailsFromTo hD hDne hDend, rfl⟩

/-- Claim C5, witness: on the two-node cycle `a→b, b→a`, `a` is absent
from its own impact and dependency sets while the other cycle member `b`
appears in both. -/
theorem self_excluded_others_reported_witness :
    ("a" ∉ (find_impact [("a", "b"), ("b", "a")] "a").affected_variables ∧
     "a" ∉ (find_dependencies [("a", "b"), ("b", "a")] "a").all_dependencies) ∧
    ("b" ∈ (find_impact [("a", "b"), ("b", "a")] "a").affected_variables ∧
     "b" ∈ (find_dependencies [("a", "b"), ("b", "a")] "a").all_dependencies) :=
  ⟨self_excluded_others_reported.1 [("a", "b"), ("b", "a")] "a",
   self_excluded_others_reported.2 [("a", "b"), ("b", "a")] "a" "b"
     [("b", "a")] [("a", "b")] (by decide)
     ⟨by decide, by decide, by decide⟩ (by decide) (by decide)
     ⟨by decide, by decide, by decide⟩ (by decide) (by decide)⟩
